import Mathlib

/-!
Shallow embedding of the `scheduler` package: the `Task` class
(src/unnamed/part_000) and the `Scheduler` class (src/src/scheduler.js).

Times and durations are modelled as integers (milliseconds).  The
JavaScript remainder operator `%` applied to integers takes the sign of
the dividend, which is `Int.tmod`.  The exact (floating-point) division
in `scheduleIndex` is modelled over the rationals.  An absent
(`undefined`) option property is `none`; the JavaScript `||` defaulting
treats `0` and the empty string as falsy.
-/

namespace Sched

/-- Options object accepted by the `Task` constructor; `none` models an
absent (`undefined`) property. -/
structure TaskOptions where
  interval : Option Int := none
  name : Option String := none
  offset : Option Int := none

/-- A task, holding the fields `_interval`, `name` and `_offset` that the
constructor sets. -/
structure Task where
  interval : Int
  name : String
  offset : Int
deriving DecidableEq, Repr

/-- JavaScript `a || b` for an optional integer property: the default `b`
is used when the property is absent (`undefined`) or falsy (`0`). -/
def orElseInt (a : Option Int) (b : Int) : Int :=
  match a with
  | some v => if v = 0 then b else v
  | none => b

/-- JavaScript `a || b` for an optional string property: the default `b`
is used when the property is absent (`undefined`) or falsy (`""`). -/
def orElseStr (a : Option String) (b : String) : String :=
  match a with
  | some v => if v = "" then b else v
  | none => b

/-- The `Task` constructor (part_000 lines 14–34):
`this._interval = options.interval || 3600000`,
`this.name = options.name || this.constructor.name` (which is `"Task"`
for the base class), and `this._offset = options.offset || 0`. -/
def Task.ofOptions (o : TaskOptions) : Task :=
  ⟨orElseInt o.interval 3600000, orElseStr o.name "Task", orElseInt o.offset 0⟩

/-- `Task.schedule` (part_000 lines 41–43):
`return now + (this._interval - (now - this._offset) % this._interval)`. -/
def Task.schedule (t : Task) (now : Int) : Int :=
  now + (t.interval - (now - t.offset).tmod t.interval)

/-- `Task.scheduleIndex` (part_000 lines 50–52):
`return (time - this._offset) / this._interval`, exact division. -/
def Task.scheduleIndex (t : Task) (time : Int) : Rat :=
  ((time : Rat) - (t.offset : Rat)) / (t.interval : Rat)

/-- The scheduled time a task computes is always on the task's grid:
`schedule now - offset` is a multiple of `interval` (it equals
`interval * ((now - offset).tdiv interval + 1)`). -/
theorem Task.interval_dvd_schedule_sub_offset (t : Task) (now : Int) :
    t.interval ∣ (t.schedule now - t.offset) := by
  refine ⟨(now - t.offset).tdiv t.interval + 1, ?_⟩
  have h := Int.tdiv_add_tmod (now - t.offset) t.interval
  simp only [Task.schedule]
  linarith [h]

/-- On a grid-aligned time, `schedule` advances by exactly one interval. -/
theorem Task.schedule_of_dvd (t : Task) (time : Int)
    (hal : t.interval ∣ (time - t.offset)) :
    t.schedule time = time + t.interval := by
  obtain ⟨k, hk⟩ := hal
  simp only [Task.schedule, hk, Int.mul_tmod_right, sub_zero]

/-- C1.  For every interval > 0, every offset, and every time `now`,
`Task.schedule now` returns a time strictly greater than `now`. -/
theorem C1_schedule_strictly_greater (t : Task) (h : 0 < t.interval)
    (now : Int) : now < t.schedule now := by
  have hlt := Int.tmod_lt_of_pos (now - t.offset) h
  simp only [Task.schedule]
  omega

/-- Witness for C1 at a concrete task and time. -/
theorem C1_witness :
    0 < (Task.ofOptions ⟨some 1000, none, none⟩).interval ∧
      (500 : Int) < (Task.ofOptions ⟨some 1000, none, none⟩).schedule 500 :=
  ⟨by decide, C1_schedule_strictly_greater (Task.ofOptions ⟨some 1000, none, none⟩) (by decide) 500⟩

/-- C5.  Reapplying `schedule` to its own output advances the tick index
by exactly one: for `t0 = schedule now` and `t1 = schedule t0`,
`scheduleIndex t1 - scheduleIndex t0 = 1`. -/
theorem C5_reschedule_advances_index_by_one (t : Task) (h : 0 < t.interval)
    (now : Int) :
    t.scheduleIndex (t.schedule (t.schedule now)) -
      t.scheduleIndex (t.schedule now) = 1 := by
  have h1 := Task.interval_dvd_schedule_sub_offset t now
  have h2 := Task.schedule_of_dvd t (t.schedule now) h1
  rw [h2]
  simp only [Task.scheduleIndex]
  rw [div_sub_div_same]
  have hne : (t.interval : Rat) ≠ 0 := by
    exact_mod_cast (by omega : t.interval ≠ 0)
  have hnum : ((t.schedule now + t.interval : Int) : Rat) - (t.offset : Rat) -
      (((t.schedule now : Int) : Rat) - (t.offset : Rat)) = (t.interval : Rat) := by
    push_cast
    ring
  rw [hnum, div_self hne]

/-- Witness for C5 at a concrete task and time. -/
theorem C5_witness :
    0 < (Task.ofOptions ⟨some 1000, none, none⟩).interval ∧
      ((Task.ofOptions ⟨some 1000, none, none⟩).scheduleIndex
          ((Task.ofOptions ⟨some 1000, none, none⟩).schedule
            ((Task.ofOptions ⟨some 1000, none, none⟩).schedule 500)) -
        (Task.ofOptions ⟨some 1000, none, none⟩).scheduleIndex
          ((Task.ofOptions ⟨some 1000, none, none⟩).schedule 500)) = 1 :=
  ⟨by decide, C5_reschedule_advances_index_by_one (Task.ofOptions ⟨some 1000, none, none⟩) (by decide) 500⟩

/-- C6 counterexample.  Constructing a `Task` with the non-positive
interval `-5` is not rejected: it yields a task whose interval is `-5`
and whose scheduling formula is degenerate (`schedule 0 ≤ 0`, the time
does not advance). -/
theorem C6_counterexample_negative_interval_accepted :
    (Task.ofOptions ⟨some (-5), none, none⟩).interval = -5 ∧
      (Task.ofOptions ⟨some (-5), none, none⟩).schedule 0 ≤ 0 := by
  constructor
  · rfl
  · decide

/-- C6 amended.  The constructor performs no validation: an interval of
`0` (falsy) is silently replaced by the default `3600000`, while a
negative interval is stored as given and makes the scheduling formula
degenerate (`schedule 0 ≤ 0`). -/
theorem C6_amended_no_validation :
    (Task.ofOptions ⟨some 0, none, none⟩).interval = 3600000 ∧
      ∀ i : Int, i < 0 →
        (Task.ofOptions ⟨some i, none, none⟩).interval = i ∧
          (Task.ofOptions ⟨some i, none, none⟩).schedule 0 ≤ 0 := by
  refine ⟨rfl, ?_⟩
  intro i hi
  have hne : i ≠ 0 := by omega
  have hint : (Task.ofOptions ⟨some i, none, none⟩).interval = i := by
    simp [Task.ofOptions, orElseInt, hne]
  refine ⟨hint, ?_⟩
  have hoff : (Task.ofOptions ⟨some i, none, none⟩).offset = 0 := rfl
  simp only [Task.schedule, hint, hoff, sub_zero, Int.zero_tmod]
  omega

/-- Witness for C6 amended at the concrete interval `-9`. -/
theorem C6_amended_witness :
    (-9 : Int) < 0 ∧
      (Task.ofOptions ⟨some (-9), none, none⟩).interval = -9 ∧
        (Task.ofOptions ⟨some (-9), none, none⟩).schedule 0 ≤ 0 :=
  ⟨by decide, C6_amended_no_validation.2 (-9) (by decide)⟩

/-- C10.  Falsy coalescing in the `Task` constructor: interval `0` or an
absent interval yields the default `3600000`; a negative interval is
stored as given; name `""` or absent yields `"Task"`; offset `0` or
absent yields `0`. -/
theorem C10_falsy_coalescing_defaults :
    (Task.ofOptions ⟨some 0, none, none⟩).interval = 3600000 ∧
      (Task.ofOptions ⟨none, none, none⟩).interval = 3600000 ∧
      (∀ i : Int, i < 0 → (Task.ofOptions ⟨some i, none, none⟩).interval = i) ∧
      (Task.ofOptions ⟨none, some "", none⟩).name = "Task" ∧
      (Task.ofOptions ⟨none, none, none⟩).name = "Task" ∧
      (Task.ofOptions ⟨none, none, some 0⟩).offset = 0 ∧
      (Task.ofOptions ⟨none, none, none⟩).offset = 0 := by
  refine ⟨rfl, rfl, ?_, by decide, rfl, rfl, rfl⟩
  intro i hi
  have hne : i ≠ 0 := by omega
  simp [Task.ofOptions, orElseInt, hne]

/-- Witness for C10 at the concrete negative interval `-7`. -/
theorem C10_witness :
    (-7 : Int) < 0 ∧ (Task.ofOptions ⟨some (-7), none, none⟩).interval = -7 :=
  ⟨by decide, C10_falsy_coalescing_defaults.2.2.1 (-7) (by decide)⟩

/-- A priority-queue entry `[time, index, task]` as pushed by
`Scheduler._schedule` (scheduler.js line 101). -/
structure Entry where
  time : Int
  index : Nat
  task : Task
deriving DecidableEq, Repr

/-- The priority-queue comparator (scheduler.js lines 34–36):
`a[0] < b[0] || a[0] === b[0] && a[1] < b[1]`. -/
def entryLt (a b : Entry) : Bool :=
  decide (a.time < b.time) || (a.time == b.time && decide (a.index < b.index))

/-- `FastPriorityQueue.peek`: the least element under `entryLt`, `none` on
the empty queue (where the JavaScript `peek()` yields `undefined`). -/
def peekMin (q : List Entry) : Option Entry :=
  match q with
  | [] => none
  | e :: es => some (es.foldl (fun m x => if entryLt x m then x else m) e)

/-- `FastPriorityQueue.replaceTop`: the top (least) element is removed and
the new entry inserted.  The scheduler only invokes it on a non-empty
queue (right after a successful `peek`). -/
def replaceTop (e : Entry) (q : List Entry) : List Entry :=
  match peekMin q with
  | none => [e]
  | some m => e :: q.erase m

/-- A performed tick `(time, index)`: the scheduled time and task index of
an entry at the moment `task.perform(now, time)` is invoked. -/
abbrev Tick := Int × Nat

/-- The reschedule step of `Scheduler._perform` (scheduler.js lines
122–124): `time = task.schedule(time)` followed by
`this._queue.replaceTop([time, index, task])`.  The new time is computed
from the entry's previous scheduled time; no clock argument exists. -/
def resched (e : Entry) : Entry :=
  ⟨e.task.schedule e.time, e.index, e.task⟩

/-- The do-while drain loop of `Scheduler._perform` (scheduler.js lines
112–131), parametrised by fuel.  It peeks the top entry, performs it
(recording the `(time, index)` arguments of `task.perform`), replaces the
top with the rescheduled entry, and repeats while the newly peeked time
is `≤ now`.  `none` models exhausted fuel or a `peek` on an empty queue
(a crash in the JavaScript). -/
def drain : Nat → Int → List Entry → Option (List Tick × List Entry)
  | 0, _, _ => none
  | fuel + 1, now, q =>
    match peekMin q with
    | none => none
    | some e =>
      let q2 := replaceTop (resched e) q
      match peekMin q2 with
      | none => none
      | some f =>
        if f.time ≤ now then
          (drain fuel now q2).map (fun r => ((e.time, e.index) :: r.1, r.2))
        else
          some ([(e.time, e.index)], q2)

/-- A single iteration of the drain loop's queue update, as a function of
the queue alone: it takes no clock argument, because the loop body
(scheduler.js lines 120–124) computes the replacement entry from the
previous scheduled time only. -/
def drainStep (q : List Entry) : Option (List Entry) :=
  match peekMin q with
  | none => none
  | some e => some (replaceTop (resched e) q)

/-- `k` iterations of `drainStep`. -/
def drainN : Nat → List Entry → Option (List Entry)
  | 0, q => some q
  | k + 1, q =>
    match drainStep q with
    | none => none
    | some q2 => drainN k q2

/-- Scheduler state: the task list, `_isRunning`, `_queue`, and the target
time of the pending timer (`none` when no timer is pending). -/
structure Scheduler where
  tasks : List Task
  isRunning : Bool
  queue : List Entry
  timer : Option Int
deriving DecidableEq, Repr

/-- The `Scheduler` constructor (scheduler.js lines 15–50): empty queue,
not running, no timer. -/
def Scheduler.init (tasks : List Task) : Scheduler :=
  ⟨tasks, false, [], none⟩

/-- The queue built by `Scheduler.start` (scheduler.js lines 64–67): one
entry `[task.schedule(now), index, task]` per task, by task index. -/
def Scheduler.startQueue (tasks : List Task) (now : Int) : List Entry :=
  tasks.enum.map (fun p => ⟨p.2.schedule now, p.1, p.2⟩)

/-- The delay `Scheduler._setTimer` passes to `setTimeout`
(scheduler.js line 143): `time - Date.now()`, where `time` is the
earliest queued entry's scheduled time. -/
def Scheduler.setTimerDelay (time nowClock : Int) : Int :=
  time - nowClock

/-- `Scheduler.start` (scheduler.js lines 55–71): a no-op when already
running; otherwise builds the queue from the current clock and arms the
timer for the earliest entry.  `none` models `_setTimer` crashing on
`peek()[0]` of an empty queue (no registered tasks). -/
def Scheduler.start (now : Int) (s : Scheduler) : Option Scheduler :=
  if s.isRunning then some s
  else
    let q := Scheduler.startQueue s.tasks now
    match peekMin q with
    | none => none
    | some e => some ⟨s.tasks, true, q, some e.time⟩

/-- `Scheduler.stop` (scheduler.js lines 76–91): a no-op when not
running; otherwise cancels the timer, empties the queue, and clears the
running flag. -/
def Scheduler.stop (s : Scheduler) : Scheduler :=
  if s.isRunning then ⟨s.tasks, false, [], none⟩ else s

/-- `Scheduler._perform` in full (scheduler.js lines 112–135): the drain
loop followed by `_setTimer`, which re-arms the timer for the earliest
remaining entry.  Returns the performed ticks and the new state. -/
def Scheduler.performTick (fuel : Nat) (now : Int) (s : Scheduler) :
    Option (List Tick × Scheduler) :=
  match drain fuel now s.queue with
  | none => none
  | some (log, qf) =>
    match peekMin qf with
    | none => none
    | some f => some (log, ⟨s.tasks, s.isRunning, qf, some f.time⟩)

/-- Queue states reachable from `start()` by any sequence of completed
drain cycles. -/
inductive Reach (tasks : List Task) : List Entry → Prop
  | init (now : Int) : Reach tasks (Scheduler.startQueue tasks now)
  | step (now : Int) (fuel : Nat) (q : List Entry) (log : List Tick)
      (qf : List Entry) (hq : Reach tasks q)
      (hd : drain fuel now q = some (log, qf)) : Reach tasks qf

/-- The comparator holds exactly when the pair `(time, index)` is
lexicographically smaller. -/
theorem entryLt_iff (a b : Entry) :
    entryLt a b = true ↔
      (a.time < b.time ∨ (a.time = b.time ∧ a.index < b.index)) := by
  simp [entryLt]

/-- The comparator fails exactly when the pair `(time, index)` is
lexicographically greater or equal. -/
theorem entryLt_false_iff (a b : Entry) :
    entryLt a b = false ↔
      (b.time < a.time ∨ (b.time = a.time ∧ b.index ≤ a.index)) := by
  rw [← Bool.not_eq_true, entryLt_iff a b]
  omega

/-- The element selected by the comparator fold is the seed or one of the
list elements. -/
theorem foldl_min_mem (a : Entry) (l : List Entry) :
    l.foldl (fun m x => if entryLt x m then x else m) a = a ∨
      l.foldl (fun m x => if entryLt x m then x else m) a ∈ l := by
  induction l generalizing a with
  | nil => exact Or.inl rfl
  | cons y ys ih =>
    simp only [List.foldl_cons]
    rcases ih (if entryLt y a then y else a) with h | h
    · rw [h]
      cases hy : entryLt y a with
      | true => simp [hy]
      | false => simp [hy]
    · exact Or.inr (List.mem_cons_of_mem y h)

/-- No element offered to the comparator fold is strictly smaller than the
selected one. -/
theorem foldl_min_not_lt (a : Entry) (l : List Entry) :
    ∀ x, (x = a ∨ x ∈ l) →
      entryLt x (l.foldl (fun m x => if entryLt x m then x else m) a) = false := by
  induction l generalizing a with
  | nil =>
    intro x hx
    rcases hx with rfl | h
    · simp only [List.foldl_nil]
      rw [entryLt_false_iff]
      omega
    · simp at h
  | cons y ys ih =>
    intro x hx
    simp only [List.foldl_cons]
    by_cases hy : entryLt y a = true
    · rw [if_pos hy]
      have key := ih y
      rcases hx with rfl | hx
      · have k1 := key y (Or.inl rfl)
        rw [entryLt_false_iff] at k1 ⊢
        rw [entryLt_iff] at hy
        omega
      · rcases List.mem_cons.mp hx with rfl | hx
        · exact key x (Or.inl rfl)
        · exact key x (Or.inr hx)
    · rw [if_neg hy]
      rw [Bool.not_eq_true] at hy
      have key := ih a
      rcases hx with rfl | hx
      · exact key x (Or.inl rfl)
      · rcases List.mem_cons.mp hx with rfl | hx
        · have k1 := key a (Or.inl rfl)
          rw [entryLt_false_iff] at k1 ⊢
          rw [entryLt_false_iff] at hy
          omega
        · exact key x (Or.inr hx)

/-- The peeked entry is in the queue. -/
theorem peekMin_mem {q : List Entry} {e : Entry} (h : peekMin q = some e) :
    e ∈ q := by
  cases q with
  | nil => simp [peekMin] at h
  | cons a l =>
    simp only [peekMin, Option.some_inj] at h
    subst h
    rcases foldl_min_mem a l with h2 | h2
    · rw [h2]
      exact List.mem_cons_self a l
    · exact List.mem_cons_of_mem a h2

/-- No queue element is strictly smaller than the peeked entry: `peek`
returns a least element under the comparator. -/
theorem peekMin_not_lt {q : List Entry} {e : Entry} (h : peekMin q = some e) :
    ∀ x ∈ q, entryLt x e = false := by
  cases q with
  | nil => simp [peekMin] at h
  | cons a l =>
    simp only [peekMin, Option.some_inj] at h
    subst h
    intro x hx
    rcases List.mem_cons.mp hx with h2 | hx
    · exact h2 ▸ foldl_min_not_lt a l a (Or.inl rfl)
    · exact foldl_min_not_lt a l x (Or.inr hx)

/-- `peek` yields `none` exactly on the empty queue. -/
theorem peekMin_eq_none_iff {q : List Entry} : peekMin q = none ↔ q = [] := by
  cases q with
  | nil => simp [peekMin]
  | cons a l => simp [peekMin]

/-- `replaceTop` never empties the queue. -/
theorem replaceTop_ne_nil (e : Entry) (q : List Entry) :
    replaceTop e q ≠ [] := by
  cases h : peekMin q with
  | none => simp [replaceTop, h]
  | some m => simp [replaceTop, h]

/-- Unfolding `replaceTop` on a non-empty queue. -/
theorem replaceTop_eq {q : List Entry} {m : Entry} (h : peekMin q = some m)
    (e : Entry) : replaceTop e q = e :: q.erase m := by
  simp [replaceTop, h]

/-- A non-empty queue is a permutation of its peeked entry consed onto the
rest. -/
theorem perm_cons_erase_peekMin {q : List Entry} {m : Entry}
    (h : peekMin q = some m) : q.Perm (m :: q.erase m) :=
  List.perm_cons_erase (peekMin_mem h)

/-- With pairwise-distinct indices, an index determines its entry. -/
theorem entry_eq_of_index_eq {q : List Entry} {a b : Entry}
    (hnd : (q.map Entry.index).Nodup) (ha : a ∈ q) (hb : b ∈ q)
    (hi : a.index = b.index) : a = b :=
  List.inj_on_of_nodup_map hnd ha hb hi

/-- Inversion of one unfolding of the drain loop. -/
theorem drain_succ_elim {n : Nat} {now : Int} {q : List Entry}
    {log : List Tick} {qf : List Entry}
    (hd : drain (n + 1) now q = some (log, qf)) :
    ∃ e f, peekMin q = some e ∧
      peekMin (replaceTop (resched e) q) = some f ∧
      ((f.time ≤ now ∧
          ∃ l2, drain n now (replaceTop (resched e) q) = some (l2, qf) ∧
            log = (e.time, e.index) :: l2) ∨
        (now < f.time ∧ log = [(e.time, e.index)] ∧
          qf = replaceTop (resched e) q)) := by
  simp only [drain] at hd
  cases he : peekMin q with
  | none => rw [he] at hd; simp at hd
  | some e =>
    rw [he] at hd
    simp only [] at hd
    cases hf : peekMin (replaceTop (resched e) q) with
    | none => rw [hf] at hd; simp at hd
    | some f =>
      rw [hf] at hd
      simp only [] at hd
      refine ⟨e, f, rfl, hf, ?_⟩
      by_cases hft : f.time ≤ now
      · rw [if_pos hft] at hd
        cases hdr : drain n now (replaceTop (resched e) q) with
        | none => rw [hdr] at hd; simp at hd
        | some r =>
          rw [hdr] at hd
          cases r with
          | mk l2 q2 =>
            simp only [Option.map_some', Option.some_inj, Prod.mk.injEq] at hd
            obtain ⟨hlog, hqf⟩ := hd
            refine Or.inl ⟨hft, l2, ?_, hlog.symm⟩
            rw [← hqf]
      · rw [if_neg hft] at hd
        simp only [Option.some_inj, Prod.mk.injEq] at hd
        obtain ⟨hlog, hqf⟩ := hd
        exact Or.inr ⟨by omega, hlog.symm, hqf.symm⟩

/-- One drain unfolding that stops after a single performance, because the
newly peeked time is in the future. -/
theorem drain_succ_stop {n : Nat} {now : Int} {q : List Entry} {e f : Entry}
    (he : peekMin q = some e)
    (hf : peekMin (replaceTop (resched e) q) = some f) (hft : now < f.time) :
    drain (n + 1) now q =
      some ([(e.time, e.index)], replaceTop (resched e) q) := by
  have hft2 : ¬ f.time ≤ now := by omega
  simp [drain, he, hf, hft2]

/-- One drain unfolding that continues, because the newly peeked time is
still due. -/
theorem drain_succ_go {n : Nat} {now : Int} {q : List Entry} {e f : Entry}
    {l2 : List Tick} {qf : List Entry}
    (he : peekMin q = some e)
    (hf : peekMin (replaceTop (resched e) q) = some f) (hft : f.time ≤ now)
    (hdr : drain n now (replaceTop (resched e) q) = some (l2, qf)) :
    drain (n + 1) now q = some ((e.time, e.index) :: l2, qf) := by
  simp [drain, he, hf, hft, hdr]

/-- A completed drain never leaves the queue empty. -/
theorem drain_ne_nil {fuel : Nat} {now : Int} {q qf : List Entry}
    {log : List Tick} (hd : drain fuel now q = some (log, qf)) : qf ≠ [] := by
  induction fuel generalizing q log with
  | zero => simp [drain] at hd
  | succ n ih =>
    obtain ⟨e, f, he, hf, hcase⟩ := drain_succ_elim hd
    rcases hcase with ⟨_, l2, hdr, _⟩ | ⟨_, _, hqf⟩
    · exact ih hdr
    · rw [hqf]
      exact replaceTop_ne_nil _ _

/-- After a completed drain, every remaining queue entry is scheduled
strictly in the future: no due entry is left unperformed when the next
timer is armed. -/
theorem drain_final_future {fuel : Nat} {now : Int} {q qf : List Entry}
    {log : List Tick} (hd : drain fuel now q = some (log, qf)) :
    ∀ x ∈ qf, now < x.time := by
  induction fuel generalizing q log with
  | zero => simp [drain] at hd
  | succ n ih =>
    obtain ⟨e, f, he, hf, hcase⟩ := drain_succ_elim hd
    rcases hcase with ⟨_, l2, hdr, _⟩ | ⟨hft, _, hqf⟩
    · exact ih hdr
    · intro x hx
      rw [hqf] at hx
      have hle := peekMin_not_lt hf x hx
      rw [entryLt_false_iff] at hle
      omega

/-- When the drain starts on a due entry, every performed tick's scheduled
time is at most `now`: no future entry is performed early. -/
theorem drain_log_le {fuel : Nat} {now : Int} {q qf : List Entry}
    {log : List Tick} {e : Entry} (hd : drain fuel now q = some (log, qf))
    (he : peekMin q = some e) (hdue : e.time ≤ now) :
    ∀ p ∈ log, p.1 ≤ now := by
  induction fuel generalizing q log e with
  | zero => simp [drain] at hd
  | succ n ih =>
    obtain ⟨e2, f, he2, hf, hcase⟩ := drain_succ_elim hd
    obtain rfl : e2 = e := by
      rw [he2] at he
      exact Option.some.inj he
    intro p hp
    rcases hcase with ⟨hft, l2, hdr, hlog⟩ | ⟨_, hlog, _⟩
    · rw [hlog] at hp
      rcases List.mem_cons.mp hp with rfl | hp
      · simpa using hdue
      · exact ih hdr hf hft p hp
    · rw [hlog] at hp
      rcases List.mem_cons.mp hp with rfl | hp
      · simpa using hdue
      · simp at hp

/-- Every entry already due at `now` is performed during the drain. -/
theorem drain_due_logged {fuel : Nat} {now : Int} {q qf : List Entry}
    {log : List Tick} (hd : drain fuel now q = some (log, qf)) :
    ∀ x ∈ q, x.time ≤ now → (x.time, x.index) ∈ log := by
  induction fuel generalizing q log with
  | zero => simp [drain] at hd
  | succ n ih =>
    obtain ⟨e, f, he, hf, hcase⟩ := drain_succ_elim hd
    intro x hx hxt
    by_cases hxe : x = e
    · subst hxe
      rcases hcase with ⟨_, _, _, hlog⟩ | ⟨_, hlog, _⟩ <;> rw [hlog] <;>
        exact List.mem_cons_self _ _
    · have hx2 : x ∈ replaceTop (resched e) q := by
        rw [replaceTop_eq he]
        exact List.mem_cons_of_mem _ ((List.mem_erase_of_ne hxe).mpr hx)
      rcases hcase with ⟨_, l2, hdr, hlog⟩ | ⟨hft, _, _⟩
      · rw [hlog]
        exact List.mem_cons_of_mem _ (ih hdr x hx2 hxt)
      · exfalso
        have hle := peekMin_not_lt hf x hx2
        rw [entryLt_false_iff] at hle
        omega

/-- Termination measure for the drain loop: the total outstanding lateness
of the queue relative to `now`. -/
def drainMeasure (now : Int) (q : List Entry) : Nat :=
  (q.map (fun e => (now + 1 - e.time).toNat)).sum

/-- Positivity of intervals is preserved by one drain step. -/
theorem pos_replaceTop {q : List Entry} {e : Entry}
    (hpos : ∀ x ∈ q, 0 < x.task.interval) (he : peekMin q = some e) :
    ∀ x ∈ replaceTop (resched e) q, 0 < x.task.interval := by
  intro x hx
  rw [replaceTop_eq he] at hx
  rcases List.mem_cons.mp hx with rfl | hx
  · simpa [resched] using hpos e (peekMin_mem he)
  · exact hpos x (List.erase_subset _ _ hx)

/-- Performing a due entry of a positive-interval task strictly decreases
the drain measure. -/
theorem drainMeasure_lt {now : Int} {q : List Entry} {e : Entry}
    (hpos : ∀ x ∈ q, 0 < x.task.interval)
    (he : peekMin q = some e) (hdue : e.time ≤ now) :
    drainMeasure now (replaceTop (resched e) q) < drainMeasure now q := by
  have hsum :=
    ((perm_cons_erase_peekMin he).map (fun x => (now + 1 - x.time).toNat)).sum_eq
  simp only [List.map_cons, List.sum_cons] at hsum
  rw [replaceTop_eq he]
  simp only [drainMeasure, List.map_cons, List.sum_cons]
  rw [hsum]
  have hgt : e.time < (resched e).time := by
    have h := C1_schedule_strictly_greater e.task (hpos e (peekMin_mem he)) e.time
    simpa [resched] using h
  have h1 : (now + 1 - (resched e).time).toNat < (now + 1 - e.time).toNat := by
    rw [Int.toNat_lt_toNat (show (0 : Int) < now + 1 - e.time by omega)]
    omega
  omega

/-- A non-empty queue always has a peekable entry. -/
theorem peekMin_isSome_of_ne_nil {q : List Entry} (h : q ≠ []) :
    ∃ f, peekMin q = some f := by
  cases hpk : peekMin q with
  | none => exact absurd (peekMin_eq_none_iff.mp hpk) h
  | some f => exact ⟨f, rfl⟩

/-- The drain loop terminates whenever every queued task has a positive
interval: fuel one more than the measure suffices. -/
theorem drain_total {now : Int} : ∀ (n : Nat) (q : List Entry) (e : Entry),
    (∀ x ∈ q, 0 < x.task.interval) → peekMin q = some e → e.time ≤ now →
    drainMeasure now q ≤ n → (drain (n + 1) now q).isSome := by
  intro n
  induction n with
  | zero =>
    intro q e hpos he hdue hm
    obtain ⟨f, hf⟩ := peekMin_isSome_of_ne_nil (replaceTop_ne_nil (resched e) q)
    by_cases hft : f.time ≤ now
    · exfalso
      have hlt := drainMeasure_lt hpos he hdue
      omega
    · rw [drain_succ_stop he hf (by omega)]
      rfl
  | succ n ih =>
    intro q e hpos he hdue hm
    obtain ⟨f, hf⟩ := peekMin_isSome_of_ne_nil (replaceTop_ne_nil (resched e) q)
    by_cases hft : f.time ≤ now
    · have hm2 : drainMeasure now (replaceTop (resched e) q) ≤ n := by
        have hlt := drainMeasure_lt hpos he hdue
        omega
      have hs := ih (replaceTop (resched e) q) f (pos_replaceTop hpos he) hf hft hm2
      obtain ⟨r, hr⟩ := Option.isSome_iff_exists.mp hs
      cases r with
      | mk l2 q2 =>
        rw [drain_succ_go he hf hft hr]
        rfl
    · rw [drain_succ_stop he hf (by omega)]
      rfl

/-- One drain step permutes nothing but the performed entry's time: the
multiset of task indices in the queue is unchanged. -/
theorem step_index_perm {q : List Entry} {e : Entry} (he : peekMin q = some e) :
    ((replaceTop (resched e) q).map Entry.index).Perm (q.map Entry.index) := by
  rw [replaceTop_eq he]
  have hp := (perm_cons_erase_peekMin he).map Entry.index
  simp only [List.map_cons] at hp ⊢
  have hidx : (resched e).index = e.index := rfl
  rw [hidx]
  exact hp.symm

/-- A completed drain preserves the multiset of task indices in the
queue. -/
theorem drain_index_perm {fuel : Nat} {now : Int} {q qf : List Entry}
    {log : List Tick} (hd : drain fuel now q = some (log, qf)) :
    (qf.map Entry.index).Perm (q.map Entry.index) := by
  induction fuel generalizing q log with
  | zero => simp [drain] at hd
  | succ n ih =>
    obtain ⟨e, f, he, hf, hcase⟩ := drain_succ_elim hd
    rcases hcase with ⟨_, l2, hdr, _⟩ | ⟨_, _, hqf⟩
    · exact (ih hdr).trans (step_index_perm he)
    · rw [hqf]
      exact step_index_perm he

/-- Unfolding of `drainStep` on a non-empty queue. -/
theorem drainStep_eq {q : List Entry} {e : Entry} (he : peekMin q = some e) :
    drainStep q = some (replaceTop (resched e) q) := by
  simp [drainStep, he]

/-- The final queue of a completed drain is obtained by iterating the
clock-free `drainStep`, once per performed tick: the wall clock determines
only how many steps run, never what a step computes. -/
theorem drain_drainN {fuel : Nat} {now : Int} {q qf : List Entry}
    {log : List Tick} (hd : drain fuel now q = some (log, qf)) :
    drainN log.length q = some qf := by
  induction fuel generalizing q log with
  | zero => simp [drain] at hd
  | succ n ih =>
    obtain ⟨e, f, he, hf, hcase⟩ := drain_succ_elim hd
    rcases hcase with ⟨_, l2, hdr, hlog⟩ | ⟨_, hlog, hqf⟩
    · rw [hlog]
      simp only [List.length_cons, drainN, drainStep_eq he]
      exact ih hdr
    · rw [hlog, hqf]
      simp [drainN, drainStep_eq he]

/-- Grid alignment is preserved by one drain step. -/
theorem aligned_replaceTop {q : List Entry} {e : Entry}
    (hal : ∀ x ∈ q, x.task.interval ∣ (x.time - x.task.offset))
    (he : peekMin q = some e) :
    ∀ x ∈ replaceTop (resched e) q,
      x.task.interval ∣ (x.time - x.task.offset) := by
  intro x hx
  rw [replaceTop_eq he] at hx
  rcases List.mem_cons.mp hx with rfl | hx
  · simpa [resched] using Task.interval_dvd_schedule_sub_offset e.task e.time
  · exact hal x (List.erase_subset _ _ hx)

/-- A completed drain preserves grid alignment of every queue entry. -/
theorem drain_aligned {fuel : Nat} {now : Int} {q qf : List Entry}
    {log : List Tick}
    (hal : ∀ x ∈ q, x.task.interval ∣ (x.time - x.task.offset))
    (hd : drain fuel now q = some (log, qf)) :
    ∀ x ∈ qf, x.task.interval ∣ (x.time - x.task.offset) := by
  induction fuel generalizing q log with
  | zero => simp [drain] at hd
  | succ n ih =>
    obtain ⟨e, f, he, hf, hcase⟩ := drain_succ_elim hd
    rcases hcase with ⟨_, l2, hdr, _⟩ | ⟨_, _, hqf⟩
    · exact ih (aligned_replaceTop hal he) hdr
    · rw [hqf]
      exact aligned_replaceTop hal he

/-- C2.  When the tick handler runs on a queue whose earliest entry is due
(`≤ now`) and every task has a positive interval, it completes: every
performed tick has scheduled time `≤ now`, every entry that was due is
performed (and its replacement pushed back, since the queue keeps one
entry per step), no entry scheduled after `now` is performed, and only
then is the timer re-armed, at which point every remaining entry is
strictly in the future. -/
theorem C2_drain_performs_exactly_due (now : Int) (s : Scheduler) (e : Entry)
    (hpos : ∀ x ∈ s.queue, 0 < x.task.interval)
    (hpeek : peekMin s.queue = some e) (hdue : e.time ≤ now) :
    ∃ fuel log s2, Scheduler.performTick fuel now s = some (log, s2) ∧
      (∀ p ∈ log, p.1 ≤ now) ∧
      (∀ x ∈ s.queue, x.time ≤ now → (x.time, x.index) ∈ log) ∧
      (∀ x ∈ s2.queue, now < x.time) := by
  have hs := drain_total (drainMeasure now s.queue) s.queue e hpos hpeek hdue
    (le_refl _)
  obtain ⟨r, hr⟩ := Option.isSome_iff_exists.mp hs
  cases r with
  | mk log qf =>
    obtain ⟨f, hf⟩ := peekMin_isSome_of_ne_nil (drain_ne_nil hr)
    refine ⟨drainMeasure now s.queue + 1, log,
      ⟨s.tasks, s.isRunning, qf, some f.time⟩, ?_, ?_, ?_, ?_⟩
    · simp [Scheduler.performTick, hr, hf]
    · exact drain_log_le hr hpeek hdue
    · exact drain_due_logged hr
    · intro x hx
      exact drain_final_future hr x hx

/-- Witness for C2: one task of interval 1000 due exactly at `now`. -/
theorem C2_witness :
    ∃ fuel log s2,
      Scheduler.performTick fuel 1000
          ⟨[⟨1000, "T", 0⟩], true, [⟨1000, 0, ⟨1000, "T", 0⟩⟩], some 1000⟩ =
        some (log, s2) ∧
      (∀ p ∈ log, p.1 ≤ (1000 : Int)) ∧
      (∀ x ∈ [(⟨1000, 0, ⟨1000, "T", 0⟩⟩ : Entry)], x.time ≤ (1000 : Int) →
        (x.time, x.index) ∈ log) ∧
      (∀ x ∈ s2.queue, (1000 : Int) < x.time) :=
  C2_drain_performs_exactly_due 1000
    ⟨[⟨1000, "T", 0⟩], true, [⟨1000, 0, ⟨1000, "T", 0⟩⟩], some 1000⟩
    ⟨1000, 0, ⟨1000, "T", 0⟩⟩ (by decide) rfl (by decide)

/-- C3.  Rescheduling happens from the previous scheduled time, never from
the wall clock: the drained queue equals an iteration of the clock-free
`drainStep`, grid alignment of every entry is preserved across the drain,
and the replacement of a grid-aligned entry is that same task's entry one
interval later. -/
theorem C3_reschedule_from_previous_time (now : Int) (fuel : Nat)
    (q qf : List Entry) (log : List Tick)
    (hal : ∀ x ∈ q, x.task.interval ∣ (x.time - x.task.offset))
    (hd : drain fuel now q = some (log, qf)) :
    drainN log.length q = some qf ∧
      (∀ x ∈ qf, x.task.interval ∣ (x.time - x.task.offset)) ∧
      (∀ e : Entry, e.task.interval ∣ (e.time - e.task.offset) →
        resched e = ⟨e.time + e.task.interval, e.index, e.task⟩) := by
  refine ⟨drain_drainN hd, drain_aligned hal hd, ?_⟩
  intro e he
  simp only [resched]
  rw [Task.schedule_of_dvd e.task e.time he]

/-- Witness for C3: one grid-aligned task drained at `now = 1000`. -/
theorem C3_witness :
    drainN 1 [(⟨1000, 0, ⟨1000, "T", 0⟩⟩ : Entry)] =
        some [⟨2000, 0, ⟨1000, "T", 0⟩⟩] ∧
      (∀ x ∈ [(⟨2000, 0, ⟨1000, "T", 0⟩⟩ : Entry)],
        x.task.interval ∣ (x.time - x.task.offset)) ∧
      (∀ e : Entry, e.task.interval ∣ (e.time - e.task.offset) →
        resched e = ⟨e.time + e.task.interval, e.index, e.task⟩) :=
  C3_reschedule_from_previous_time 1000 1 [⟨1000, 0, ⟨1000, "T", 0⟩⟩]
    [⟨2000, 0, ⟨1000, "T", 0⟩⟩] [(1000, 0)] (by decide) (by decide)

/-- C7.  In every queue state reachable from `start()` by completed drain
cycles, the task indices present are exactly `0 .. tasks.length - 1`, each
exactly once: every task owns at most (in fact exactly) one live entry. -/
theorem C7_one_live_entry_per_task (tasks : List Task) (q : List Entry)
    (h : Reach tasks q) :
    (q.map Entry.index).Perm (List.range tasks.length) ∧
      (q.map Entry.index).Nodup := by
  have hperm : (q.map Entry.index).Perm (List.range tasks.length) := by
    induction h with
    | init now =>
      have hmap : (Scheduler.startQueue tasks now).map Entry.index
          = List.range tasks.length := by
        simp only [Scheduler.startQueue, List.map_map]
        have hcomp : (Entry.index ∘ fun p : Nat × Task =>
            (⟨p.2.schedule now, p.1, p.2⟩ : Entry)) = Prod.fst := rfl
        rw [hcomp, List.enum_map_fst]
      rw [hmap]
    | step now fuel q2 log qf hq hd ih =>
      exact (drain_index_perm hd).trans ih
  exact ⟨hperm, hperm.symm.nodup (List.nodup_range _)⟩

/-- Witness for C7 at a singleton task list, via the `start()` state. -/
theorem C7_witness :
    ((Scheduler.startQueue [⟨2000, "W", 5⟩] 0).map Entry.index).Perm
        (List.range 1) ∧
      ((Scheduler.startQueue [⟨2000, "W", 5⟩] 0).map Entry.index).Nodup :=
  C7_one_live_entry_per_task [⟨2000, "W", 5⟩] _ (Reach.init 0)

/-- C8 counterexample.  `_setTimer` passes `time - Date.now()` to
`setTimeout`: at earliest time 100 and clock 200 the delay is `-100`,
which is negative and differs from `max 0 (100 - 200) = 0`. -/
theorem C8_counterexample_negative_delay :
    Scheduler.setTimerDelay 100 200 = -100 ∧
      Scheduler.setTimerDelay 100 200 < 0 ∧
      Scheduler.setTimerDelay 100 200 ≠ max 0 (100 - 200) := by
  decide

/-- C8 amended.  The delay passed to the timer is
`earliestTime - currentTime` without clamping: it equals
`max 0 (earliestTime - currentTime)` when the earliest entry is not in
the past, but is negative whenever the earliest entry is overdue. -/
theorem C8_amended_delay_unclamped :
    (∀ (q : List Entry) (e : Entry) (now : Int), peekMin q = some e →
        now ≤ e.time →
        Scheduler.setTimerDelay e.time now = max 0 (e.time - now)) ∧
      ∀ (q : List Entry) (e : Entry) (now : Int), peekMin q = some e →
        e.time < now → Scheduler.setTimerDelay e.time now < 0 := by
  constructor
  · intro q e now hpk h
    simp only [Scheduler.setTimerDelay]
    omega
  · intro q e now hpk h
    simp only [Scheduler.setTimerDelay]
    omega

/-- Witness for C8 amended at concrete single-entry queues. -/
theorem C8_amended_witness :
    Scheduler.setTimerDelay 300 100 = max 0 (300 - 100) ∧
      Scheduler.setTimerDelay 100 200 < 0 :=
  ⟨C8_amended_delay_unclamped.1 [⟨300, 0, ⟨1000, "T", 0⟩⟩]
      ⟨300, 0, ⟨1000, "T", 0⟩⟩ 100 rfl (by decide),
    C8_amended_delay_unclamped.2 [⟨100, 0, ⟨1000, "T", 0⟩⟩]
      ⟨100, 0, ⟨1000, "T", 0⟩⟩ 200 rfl (by decide)⟩

/-- C9.  Lifecycle idempotence: a second `start()` right after a
successful `start()` returns the same state unchanged (the guard makes it
a no-op, whatever the new clock reads), and `stop()` on a non-running
scheduler changes nothing. -/
theorem C9_lifecycle_idempotent :
    (∀ (s s2 : Scheduler) (now now2 : Int),
        Scheduler.start now s = some s2 →
        Scheduler.start now2 s2 = some s2) ∧
      ∀ s : Scheduler, s.isRunning = false → Scheduler.stop s = s := by
  constructor
  · intro s s2 now now2 h
    by_cases hr : s.isRunning
    · simp only [Scheduler.start, if_pos hr, Option.some_inj] at h
      subst h
      simp [Scheduler.start, hr]
    · simp only [Scheduler.start, if_neg hr] at h
      cases hpk : peekMin (Scheduler.startQueue s.tasks now) with
      | none => rw [hpk] at h; simp at h
      | some e =>
        rw [hpk] at h
        simp only [Option.some_inj] at h
        subst h
        simp [Scheduler.start]
  · intro s h
    simp [Scheduler.stop, h]

/-- Witness for C9: a concrete started scheduler and a concrete
non-running scheduler. -/
theorem C9_witness :
    Scheduler.start 5
        ⟨[⟨1000, "T", 0⟩], true, [⟨1000, 0, ⟨1000, "T", 0⟩⟩], some 1000⟩ =
      some ⟨[⟨1000, "T", 0⟩], true, [⟨1000, 0, ⟨1000, "T", 0⟩⟩], some 1000⟩ ∧
      Scheduler.stop (Scheduler.init [⟨1000, "T", 0⟩]) =
        Scheduler.init [⟨1000, "T", 0⟩] :=
  ⟨C9_lifecycle_idempotent.1 (Scheduler.init [⟨1000, "T", 0⟩]) _ 0 5 rfl,
    C9_lifecycle_idempotent.2 (Scheduler.init [⟨1000, "T", 0⟩]) rfl⟩

/-- Two ticks with different task indices are different. -/
theorem tick_ne_of_index_ne {a b : Entry} (h : a.index ≠ b.index) :
    ((a.time, a.index) : Tick) ≠ (b.time, b.index) := by
  intro hcon
  exact h (congrArg Prod.snd hcon)

/-- C4.  The queue comparator is the ascending lexicographic order on
`(scheduledTime, taskIndex)`, and consequently, within one drain cycle,
of two queued entries with the same scheduled time the one with the lower
task index is always performed first (it appears strictly earlier in the
performed-tick log). -/
theorem C4_ties_performed_lower_index_first (now : Int) :
    ∀ (fuel : Nat) (q qf : List Entry) (log : List Tick) (e1 e2 : Entry),
      (q.map Entry.index).Nodup → e1 ∈ q → e2 ∈ q →
      e1.time = e2.time → e1.index < e2.index →
      drain fuel now q = some (log, qf) →
      (e2.time, e2.index) ∈ log →
      ((∀ a b : Entry, entryLt a b = true ↔
          (a.time < b.time ∨ (a.time = b.time ∧ a.index < b.index))) ∧
        (e1.time, e1.index) ∈ log ∧
        List.indexOf (e1.time, e1.index) log <
          List.indexOf (e2.time, e2.index) log) := by
  intro fuel
  induction fuel with
  | zero =>
    intro q qf log e1 e2 _ _ _ _ _ hd _
    simp [drain] at hd
  | succ n ih =>
    intro q qf log e1 e2 hnd h1 h2 ht hij hd hj
    refine ⟨fun a b => entryLt_iff a b, ?_⟩
    obtain ⟨e0, f, he, hf, hcase⟩ := drain_succ_elim hd
    by_cases h01 : e0.index = e1.index
    · have he01 : e0 = e1 := entry_eq_of_index_eq hnd (peekMin_mem he) h1 h01
      subst he01
      have hne12 : ((e0.time, e0.index) : Tick) ≠ (e2.time, e2.index) :=
        tick_ne_of_index_ne (by omega)
      rcases hcase with ⟨_, l2, _, hlog⟩ | ⟨_, hlog, _⟩
      · rw [hlog]
        refine ⟨List.mem_cons_self _ _, ?_⟩
        rw [List.indexOf_cons, List.indexOf_cons, beq_self_eq_true,
          beq_eq_false_iff_ne.mpr hne12, Bool.cond_true, Bool.cond_false]
        omega
      · rw [hlog] at hj
        simp only [List.mem_singleton] at hj
        exact absurd hj.symm hne12
    · by_cases h02 : e0.index = e2.index
      · exfalso
        have he02 : e0 = e2 := entry_eq_of_index_eq hnd (peekMin_mem he) h2 h02
        have hlt : entryLt e1 e2 = true := by
          rw [entryLt_iff]
          omega
        have hfalse := peekMin_not_lt he e1 h1
        rw [he02, hlt] at hfalse
        exact Bool.true_eq_false ▸ hfalse ▸ rfl
      · have hne1 : e1 ≠ e0 := fun hcon => h01 (congrArg Entry.index hcon).symm
        have hne2 : e2 ≠ e0 := fun hcon => h02 (congrArg Entry.index hcon).symm
        have hh1 : ((e0.time, e0.index) : Tick) ≠ (e1.time, e1.index) :=
          tick_ne_of_index_ne (fun hcon => h01 hcon)
        have hh2 : ((e0.time, e0.index) : Tick) ≠ (e2.time, e2.index) :=
          tick_ne_of_index_ne (fun hcon => h02 hcon)
        have h1q2 : e1 ∈ replaceTop (resched e0) q := by
          rw [replaceTop_eq he]
          exact List.mem_cons_of_mem _ ((List.mem_erase_of_ne hne1).mpr h1)
        have h2q2 : e2 ∈ replaceTop (resched e0) q := by
          rw [replaceTop_eq he]
          exact List.mem_cons_of_mem _ ((List.mem_erase_of_ne hne2).mpr h2)
        have hnd2 : ((replaceTop (resched e0) q).map Entry.index).Nodup :=
          (step_index_perm he).symm.nodup hnd
        rcases hcase with ⟨hft, l2, hdr, hlog⟩ | ⟨_, hlog, _⟩
        · rw [hlog] at hj
          rcases List.mem_cons.mp hj with hcon | hj2
          · exact absurd hcon.symm hh2
          · obtain ⟨_, hp1, hidx⟩ :=
              ih (replaceTop (resched e0) q) qf l2 e1 e2 hnd2 h1q2 h2q2 ht hij
                hdr hj2
            rw [hlog]
            refine ⟨List.mem_cons_of_mem _ hp1, ?_⟩
            rw [List.indexOf_cons, List.indexOf_cons,
              beq_eq_false_iff_ne.mpr hh1, beq_eq_false_iff_ne.mpr hh2,
              Bool.cond_false, Bool.cond_false]
            omega
        · rw [hlog] at hj
          simp only [List.mem_singleton] at hj
          exact absurd hj.symm hh2

/-- Witness for C4: two tasks tied at time 1000, indices 0 and 1; the
index-0 entry is logged first. -/
theorem C4_witness :
    ((∀ a b : Entry, entryLt a b = true ↔
        (a.time < b.time ∨ (a.time = b.time ∧ a.index < b.index))) ∧
      ((1000 : Int), (0 : Nat)) ∈ [((1000 : Int), (0 : Nat)), (1000, 1)] ∧
      List.indexOf ((1000 : Int), (0 : Nat)) [((1000 : Int), (0 : Nat)), (1000, 1)] <
        List.indexOf ((1000 : Int), (1 : Nat)) [((1000 : Int), (0 : Nat)), (1000, 1)]) :=
  C4_ties_performed_lower_index_first 1000 3
    [⟨1000, 0, ⟨1000, "A", 0⟩⟩, ⟨1000, 1, ⟨500, "B", 0⟩⟩]
    [⟨1500, 1, ⟨500, "B", 0⟩⟩, ⟨2000, 0, ⟨1000, "A", 0⟩⟩]
    [(1000, 0), (1000, 1)]
    ⟨1000, 0, ⟨1000, "A", 0⟩⟩ ⟨1000, 1, ⟨500, "B", 0⟩⟩
    (by decide) (by decide) (by decide) rfl (by decide) (by decide) (by decide)

end Sched
